import Mathlib

/-!
Verification of the quadtree in `src/QuadTree.js` (flamurey/quadtree-js).

The JavaScript code is shallowly embedded: coordinates become rationals,
the mutable node object becomes the inductive type `Quadtree`, and the
mutating methods become pure functions returning the updated node.
`insert` is the only method whose recursion is not structural (after a
split it re-inserts the node's objects into freshly created children), so
it is defined with an explicit fuel parameter; the public `Quadtree.insert`
supplies fuel `(max_levels - level).toNat + 1`, which matches the source's
actual recursion depth, and we prove that on reachable trees this fuel is
always sufficient.
-/

/-- An axis-aligned rectangle given by its four edge coordinates, with the
convention (from the spec's data model) that `top > bottom` and
`right > left` for well-formed data.  The same record shape is used by the
source both for node bounds and for query rectangles (`pRect`). -/
structure Bounds where
  left : ℚ
  right : ℚ
  top : ℚ
  bottom : ℚ
deriving DecidableEq, Repr

/-- `bounds.width = bounds.right - bounds.left`, computed once at node
construction; bounds are immutable afterwards, so we model it as a derived
function. -/
def Bounds.width (b : Bounds) : ℚ := b.right - b.left

/-- `bounds.height = bounds.top - bounds.bottom`, computed once at node
construction. -/
def Bounds.height (b : Bounds) : ℚ := b.top - b.bottom

/-- A stored point: `lon` is the x coordinate, `lat` the y coordinate.
Any extra payload fields are opaque to the tree and irrelevant here. -/
structure Point where
  lon : ℚ
  lat : ℚ
deriving DecidableEq, Repr

/-- A quadtree node.  `nodes` is `none` for a leaf (the source's
`typeof this.nodes[0] === 'undefined'`) and `some (n0, n1, n2, n3)` after
`split`, which always populates all four slots atomically. -/
inductive Quadtree : Type where
  | mk (max_objects max_levels level : Int) (bounds : Bounds)
      (objects : List Point)
      (nodes : Option (Quadtree × Quadtree × Quadtree × Quadtree)) : Quadtree

def Quadtree.max_objects : Quadtree → Int
  | .mk mo _ _ _ _ _ => mo

def Quadtree.max_levels : Quadtree → Int
  | .mk _ ml _ _ _ _ => ml

def Quadtree.level : Quadtree → Int
  | .mk _ _ lv _ _ _ => lv

def Quadtree.bounds : Quadtree → Bounds
  | .mk _ _ _ b _ _ => b

def Quadtree.objects : Quadtree → List Point
  | .mk _ _ _ _ os _ => os

def Quadtree.nodes : Quadtree → Option (Quadtree × Quadtree × Quadtree × Quadtree)
  | .mk _ _ _ _ _ ns => ns

/-- JavaScript `x || d` for an optional integer argument: an absent
argument and a supplied `0` both fall back to the default `d`. -/
def jsOr (x : Option Int) (d : Int) : Int :=
  match x with
  | none => d
  | some v => if v = 0 then d else v

/-- The `Quadtree` constructor: defaults `max_objects = 10`,
`max_levels = 4`, `level = 0` (via `||`), computes and stores
`width`/`height`, and initializes `objects` and `nodes` to empty. -/
def Quadtree.make (bounds : Bounds) (max_objects max_levels level : Option Int) : Quadtree :=
  .mk (jsOr max_objects 10) (jsOr max_levels 4) (jsOr level 0) bounds [] none

/-- The bounds of subnode `i` created by `split`: the four rectangles the
source builds from `horMidpoint = left + width/2` and
`verMidpoint = bottom + height/2`, in the source's index order
0 = bottom right, 1 = bottom left, 2 = top left, 3 = top right. -/
def quadrantBounds (b : Bounds) (i : Fin 4) : Bounds :=
  let horMidpoint := b.left + b.width / 2
  let verMidpoint := b.bottom + b.height / 2
  match i with
  | 0 => { left := horMidpoint, bottom := b.bottom, right := b.right, top := verMidpoint }
  | 1 => { left := b.left, bottom := b.bottom, right := horMidpoint, top := verMidpoint }
  | 2 => { left := b.left, bottom := verMidpoint, right := horMidpoint, top := b.top }
  | 3 => { left := horMidpoint, bottom := verMidpoint, right := b.right, top := b.top }

/-- The four subnodes created by `split`: each is built by the `Quadtree`
constructor with the parent's `max_objects`/`max_levels` and
`nextLevel = level + 1`. -/
def splitChildren (mo ml lv : Int) (b : Bounds) :
    Quadtree × Quadtree × Quadtree × Quadtree :=
  (Quadtree.make (quadrantBounds b 0) (some mo) (some ml) (some (lv + 1)),
   Quadtree.make (quadrantBounds b 1) (some mo) (some ml) (some (lv + 1)),
   Quadtree.make (quadrantBounds b 2) (some mo) (some ml) (some (lv + 1)),
   Quadtree.make (quadrantBounds b 3) (some mo) (some ml) (some (lv + 1)))

/-- `split`: populate `nodes[0..3]` with the four quadrant subnodes;
`objects` is untouched (redistribution is `insert`'s job). -/
def Quadtree.split : Quadtree → Quadtree
  | .mk mo ml lv b os _ => .mk mo ml lv b os (some (splitChildren mo ml lv b))

/-- Select component `i` of the four subnodes (the source's `nodes[i]`). -/
def nth4 (c : Quadtree × Quadtree × Quadtree × Quadtree) : Fin 4 → Quadtree
  | 0 => c.1
  | 1 => c.2.1
  | 2 => c.2.2.1
  | 3 => c.2.2.2

/-- Replace component `i` of the four subnodes (mutation of `nodes[i]`). -/
def set4 (c : Quadtree × Quadtree × Quadtree × Quadtree) (i : Fin 4) (x : Quadtree) :
    Quadtree × Quadtree × Quadtree × Quadtree :=
  match i with
  | 0 => (x, c.2.1, c.2.2.1, c.2.2.2)
  | 1 => (c.1, x, c.2.2.1, c.2.2.2)
  | 2 => (c.1, c.2.1, x, c.2.2.2)
  | 3 => (c.1, c.2.1, c.2.2.1, x)

/-- `getIndexForPoint`, as a function of the node's bounds.  Every branch
of the source assigns one of 0, 3, 2, 1, so the `-1` the source
initializes `index` with is dead and the result is a definite `Fin 4`
(the `index !== -1` guards in `insert` are therefore always true). -/
def getIndexForPointB (b : Bounds) (point : Point) : Fin 4 :=
  let horizontalMidpoint := b.left + b.width / 2
  let verticalMidpoint := b.bottom + b.height / 2
  if point.lon > horizontalMidpoint then
    if point.lat > verticalMidpoint then 3 else 0
  else
    if point.lat > verticalMidpoint then 2 else 1

/-- `Quadtree.prototype.getIndexForPoint`. -/
def Quadtree.getIndexForPoint (t : Quadtree) (point : Point) : Fin 4 :=
  getIndexForPointB t.bounds point

/-- `Quadtree.prototype.hasIntersection`: true unless the query rectangle
and the node's bounds are disjoint on some axis (touching edges count as
intersecting). -/
def Quadtree.hasIntersection (t : Quadtree) (pRect : Bounds) : Bool :=
  !(decide (pRect.right < t.bounds.left) || decide (t.bounds.right < pRect.left)
    || decide (pRect.top < t.bounds.bottom) || decide (t.bounds.top < pRect.bottom))

/-- `Quadtree.prototype.ALL_NODES`. -/
def ALL_NODES : List (Fin 4) := [0, 1, 2, 3]

/-- `Quadtree.prototype.getIndexForRect`: fast path when the node's own
bounds are fully inside `pRect`, otherwise the indices of the subnodes
intersecting `pRect` in order `0 → 3`.  The source faults on a leaf in the
slow path (it dereferences `this.nodes[i]`); `retrieve` only ever calls
this on split nodes, and we return `[]` in that unreachable case. -/
def Quadtree.getIndexForRect (t : Quadtree) (pRect : Bounds) : List (Fin 4) :=
  if t.bounds.left ≥ pRect.left ∧ t.bounds.right ≤ pRect.right
      ∧ t.bounds.bottom ≥ pRect.bottom ∧ t.bounds.top ≤ pRect.top then
    ALL_NODES
  else
    match t.nodes with
    | some c => (List.finRange 4).filter (fun i => (nth4 c i).hasIntersection pRect)
    | none => []

/-- `Quadtree.prototype.retrieve`: the node's own `objects` (unfiltered),
followed, if the node is split, by the retrieval results of the subnodes
selected by `getIndexForRect`, concatenated in index order. -/
def Quadtree.retrieve : Quadtree → Bounds → List Point
  | .mk _ _ _ _ objs none, _ => objs
  | .mk mo ml lv b objs (some (n0, n1, n2, n3)), pRect =>
      let indexes := (Quadtree.mk mo ml lv b objs (some (n0, n1, n2, n3))).getIndexForRect pRect
      let rs : Fin 4 → List Point := fun i =>
        match i with
        | 0 => n0.retrieve pRect
        | 1 => n1.retrieve pRect
        | 2 => n2.retrieve pRect
        | 3 => n3.retrieve pRect
      objs ++ (indexes.map rs).flatten

/-- The redistribution loop of `insert` (the source's `while` loop over
`this.objects`, which always splices because `getIndexForPoint` never
returns `-1`): move each object, in order, into the subnode chosen by the
parent's `getIndexForPoint`, inserting it via `ins`, the insert at the
next recursion depth. -/
def redistF (ins : Quadtree → Point → Option Quadtree) (b : Bounds) :
    List Point → (Quadtree × Quadtree × Quadtree × Quadtree) →
    Option (Quadtree × Quadtree × Quadtree × Quadtree)
  | [], c => some c
  | p :: rest, c =>
      let index := getIndexForPointB b p
      match ins (nth4 c index) p with
      | none => none
      | some child => redistF ins b rest (set4 c index child)

/-- The body of `Quadtree.prototype.insert`, with `ins` standing for the
recursive calls (which the source makes one level deeper).  A split node
delegates to the subnode chosen by `getIndexForPoint`; a leaf pushes the
point and, on overflow below the depth cap, splits and redistributes all
its objects into the subnodes. -/
def insertStep (ins : Quadtree → Point → Option Quadtree) :
    Quadtree → Point → Option Quadtree
  | .mk mo ml lv b objs (some c), point =>
      let index := getIndexForPointB b point
      match ins (nth4 c index) point with
      | none => none
      | some child => some (.mk mo ml lv b objs (some (set4 c index child)))
  | .mk mo ml lv b objs none, point =>
      let objs2 := objs ++ [point]
      if ((objs2.length : Int) > mo ∧ lv < ml) then
        match redistF ins b objs2 (splitChildren mo ml lv b) with
        | none => none
        | some c2 => some (.mk mo ml lv b [] (some c2))
      else
        some (.mk mo ml lv b objs2 none)

/-- `Quadtree.prototype.insert`, with an explicit fuel bounding the
recursion depth (each nested call of the source runs one level deeper, so
the fuel `(max_levels - level).toNat + 1` supplied by `Quadtree.insert`
is exactly the source's recursion-depth budget). -/
def insertF : Nat → Quadtree → Point → Option Quadtree
  | 0 => fun _ _ => none
  | fuel + 1 => insertStep (insertF fuel)

theorem insertF_succ (fuel : Nat) (t : Quadtree) (point : Point) :
    insertF (fuel + 1) t point = insertStep (insertF fuel) t point := rfl

/-- The fuel actually needed by `insert` on a node: one call per level
from the node's own level down to the depth cap. -/
def fuelFor (t : Quadtree) : Nat := (t.max_levels - t.level).toNat + 1

/-- The public `insert`: `none` would mean the recursion-depth budget
`max_levels - level` was exceeded; on reachable trees this never happens
(proved below). -/
def Quadtree.insert (t : Quadtree) (point : Point) : Option Quadtree :=
  insertF (fuelFor t) t point

/-- Insert a list of points in order. -/
def insertList : Quadtree → List Point → Option Quadtree
  | t, [] => some t
  | t, p :: ps =>
      match t.insert p with
      | none => none
      | some t2 => insertList t2 ps

/-- `Quadtree.prototype.clear`: empty `objects` and drop all subnodes,
leaving a fresh leaf with the same bounds, level and policy.  (The source
recursively clears each subnode before discarding the `nodes` array; under
value semantics clearing a discarded subtree has no observable effect.) -/
def Quadtree.clear : Quadtree → Quadtree
  | .mk mo ml lv b _ _ => .mk mo ml lv b [] none

/-- All points stored anywhere in the subtree, in node order. -/
def Quadtree.allPoints : Quadtree → List Point
  | .mk _ _ _ _ objs none => objs
  | .mk _ _ _ _ objs (some (n0, n1, n2, n3)) =>
      objs ++ (n0.allPoints ++ (n1.allPoints ++ (n2.allPoints ++ n3.allPoints)))

/-- Every node of the subtree (the node itself included). -/
def Quadtree.subtrees : Quadtree → List Quadtree
  | .mk mo ml lv b os none => [.mk mo ml lv b os none]
  | .mk mo ml lv b os (some (n0, n1, n2, n3)) =>
      .mk mo ml lv b os (some (n0, n1, n2, n3)) ::
        (n0.subtrees ++ (n1.subtrees ++ (n2.subtrees ++ n3.subtrees)))

/-- Depth of the tree: number of edges on a longest root-to-leaf path. -/
def Quadtree.depth : Quadtree → Nat
  | .mk _ _ _ _ _ none => 0
  | .mk _ _ _ _ _ (some (n0, n1, n2, n3)) =>
      1 + max (max n0.depth n1.depth) (max n2.depth n3.depth)

/-- Follow a path of child indices from a node. -/
def Quadtree.follow : Quadtree → List (Fin 4) → Option Quadtree
  | t, [] => some t
  | .mk _ _ _ _ _ none, _ :: _ => none
  | .mk _ _ _ _ _ (some c), i :: is => (nth4 c i).follow is

/-- Closed (boundary included) membership of a point in a rectangle. -/
def memB (b : Bounds) (p : Point) : Prop :=
  b.left ≤ p.lon ∧ p.lon ≤ b.right ∧ b.bottom ≤ p.lat ∧ p.lat ≤ b.top

instance (b : Bounds) (p : Point) : Decidable (memB b p) := by
  unfold memB; infer_instance

/-- Strict (interior) membership of a point in a rectangle. -/
def memInterior (b : Bounds) (p : Point) : Prop :=
  b.left < p.lon ∧ p.lon < b.right ∧ b.bottom < p.lat ∧ p.lat < b.top

/-- A tree is reachable when it results from a constructed root (level not
supplied, hence 0) by some sequence of successful `insert` calls. -/
def Reachable (t : Quadtree) : Prop :=
  ∃ (b : Bounds) (mo ml : Option Int) (ps : List Point),
    insertList (Quadtree.make b mo ml none) ps = some t

/-! ### Basic lemmas about the embedding -/

@[simp] theorem Quadtree.max_objects_mk (mo ml lv : Int) (b : Bounds) (os : List Point)
    (ns : Option (Quadtree × Quadtree × Quadtree × Quadtree)) :
    (Quadtree.mk mo ml lv b os ns).max_objects = mo := rfl

@[simp] theorem Quadtree.max_levels_mk (mo ml lv : Int) (b : Bounds) (os : List Point)
    (ns : Option (Quadtree × Quadtree × Quadtree × Quadtree)) :
    (Quadtree.mk mo ml lv b os ns).max_levels = ml := rfl

@[simp] theorem Quadtree.level_mk (mo ml lv : Int) (b : Bounds) (os : List Point)
    (ns : Option (Quadtree × Quadtree × Quadtree × Quadtree)) :
    (Quadtree.mk mo ml lv b os ns).level = lv := rfl

@[simp] theorem Quadtree.bounds_mk (mo ml lv : Int) (b : Bounds) (os : List Point)
    (ns : Option (Quadtree × Quadtree × Quadtree × Quadtree)) :
    (Quadtree.mk mo ml lv b os ns).bounds = b := rfl

@[simp] theorem Quadtree.objects_mk (mo ml lv : Int) (b : Bounds) (os : List Point)
    (ns : Option (Quadtree × Quadtree × Quadtree × Quadtree)) :
    (Quadtree.mk mo ml lv b os ns).objects = os := rfl

@[simp] theorem Quadtree.nodes_mk (mo ml lv : Int) (b : Bounds) (os : List Point)
    (ns : Option (Quadtree × Quadtree × Quadtree × Quadtree)) :
    (Quadtree.mk mo ml lv b os ns).nodes = ns := rfl

@[simp] theorem nth4_set4_same (c : Quadtree × Quadtree × Quadtree × Quadtree)
    (i : Fin 4) (x : Quadtree) : nth4 (set4 c i x) i = x := by
  fin_cases i <;> rfl

theorem nth4_set4_ne (c : Quadtree × Quadtree × Quadtree × Quadtree)
    (i j : Fin 4) (x : Quadtree) (h : j ≠ i) : nth4 (set4 c i x) j = nth4 c j := by
  fin_cases i <;> fin_cases j <;> simp_all <;> rfl

theorem jsOr_ne_zero (x : Option Int) (d : Int) (hd : d ≠ 0) : jsOr x d ≠ 0 := by
  cases x with
  | none => exact hd
  | some v =>
    by_cases hv : v = 0
    · simp [jsOr, hv, hd]
    · simp [jsOr, hv]

theorem jsOr_some_zero_default (v : Int) : jsOr (some v) 0 = v := by
  by_cases hv : v = 0 <;> simp [jsOr, hv]

/-- For nonzero policy values the constructor stores the supplied values
verbatim (the `|| default` fallbacks do not fire). -/
theorem Quadtree.make_eval (b : Bounds) (mo ml lv : Int) (hmo : mo ≠ 0) (hml : ml ≠ 0) :
    Quadtree.make b (some mo) (some ml) (some lv) = Quadtree.mk mo ml lv b [] none := by
  unfold Quadtree.make
  rw [show jsOr (some mo) 10 = mo by simp [jsOr, hmo],
    show jsOr (some ml) 4 = ml by simp [jsOr, hml], jsOr_some_zero_default]

theorem nth4_splitChildren (mo ml lv : Int) (b : Bounds) (i : Fin 4) :
    nth4 (splitChildren mo ml lv b) i =
      Quadtree.make (quadrantBounds b i) (some mo) (some ml) (some (lv + 1)) := by
  fin_cases i <;> rfl

theorem mem_allPoints_node (mo ml lv : Int) (b : Bounds) (os : List Point)
    (c : Quadtree × Quadtree × Quadtree × Quadtree) (q : Point) :
    q ∈ (Quadtree.mk mo ml lv b os (some c)).allPoints ↔
      q ∈ os ∨ ∃ i : Fin 4, q ∈ (nth4 c i).allPoints := by
  obtain ⟨n0, n1, n2, n3⟩ := c
  constructor
  · intro h
    simp only [Quadtree.allPoints, List.mem_append] at h
    rcases h with h | h | h | h | h
    · exact Or.inl h
    · exact Or.inr ⟨0, h⟩
    · exact Or.inr ⟨1, h⟩
    · exact Or.inr ⟨2, h⟩
    · exact Or.inr ⟨3, h⟩
  · intro h
    simp only [Quadtree.allPoints, List.mem_append]
    rcases h with h | ⟨i, h⟩
    · exact Or.inl h
    · fin_cases i <;> simp_all [nth4]

theorem Quadtree.retrieve_leaf (mo ml lv : Int) (b : Bounds) (os : List Point) (R : Bounds) :
    (Quadtree.mk mo ml lv b os none).retrieve R = os := rfl

theorem Quadtree.retrieve_node (mo ml lv : Int) (b : Bounds) (os : List Point)
    (c : Quadtree × Quadtree × Quadtree × Quadtree) (R : Bounds) :
    (Quadtree.mk mo ml lv b os (some c)).retrieve R =
      os ++ (((Quadtree.mk mo ml lv b os (some c)).getIndexForRect R).map
        (fun i => (nth4 c i).retrieve R)).flatten := by
  obtain ⟨n0, n1, n2, n3⟩ := c
  show os ++ _ = os ++ _
  congr 1
  congr 1
  apply List.map_congr_left
  intro i _
  fin_cases i <;> rfl

@[simp] theorem quadrantBounds_zero (b : Bounds) :
    quadrantBounds b 0 =
      { left := b.left + b.width / 2, bottom := b.bottom,
        right := b.right, top := b.bottom + b.height / 2 } := rfl

@[simp] theorem quadrantBounds_one (b : Bounds) :
    quadrantBounds b 1 =
      { left := b.left, bottom := b.bottom,
        right := b.left + b.width / 2, top := b.bottom + b.height / 2 } := rfl

@[simp] theorem quadrantBounds_two (b : Bounds) :
    quadrantBounds b 2 =
      { left := b.left, bottom := b.bottom + b.height / 2,
        right := b.left + b.width / 2, top := b.top } := rfl

@[simp] theorem quadrantBounds_three (b : Bounds) :
    quadrantBounds b 3 =
      { left := b.left + b.width / 2, bottom := b.bottom + b.height / 2,
        right := b.right, top := b.top } := rfl

/-- A point inside a node's bounds is inside the bounds of the quadrant
`getIndexForPoint` routes it to. -/
theorem memB_quadrant_of_index (b : Bounds) (p : Point) (h : memB b p) :
    memB (quadrantBounds b (getIndexForPointB b p)) p := by
  obtain ⟨h1, h2, h3, h4⟩ := h
  simp only [getIndexForPointB]
  split_ifs with hx hy hy <;>
    simp only [quadrantBounds_zero, quadrantBounds_one, quadrantBounds_two,
      quadrantBounds_three, memB] <;>
    refine ⟨by linarith, by linarith, by linarith, by linarith⟩

/-- Two rectangles sharing a common point intersect. -/
theorem hasIntersection_of_common (t : Quadtree) (R : Bounds) (p : Point)
    (h1 : memB t.bounds p) (h2 : memB R p) : t.hasIntersection R = true := by
  obtain ⟨a1, a2, a3, a4⟩ := h1
  obtain ⟨b1, b2, b3, b4⟩ := h2
  simp only [Quadtree.hasIntersection, Bool.not_eq_eq_eq_not, Bool.not_true,
    Bool.or_eq_false_iff, decide_eq_false_iff_not, not_lt]
  refine ⟨⟨⟨by linarith, by linarith⟩, by linarith⟩, by linarith⟩

/-- The shape invariant maintained by construction and `insert`:
policy values are nonzero (the constructor's `||` defaults guarantee it),
and a split node sits strictly below the depth cap, has an empty `objects`
list, and its four subnodes carry the inherited policy, the next level,
the quadrant bounds, and only points that `getIndexForPoint` routes to
their index. -/
inductive TreeInv : Quadtree → Prop where
  | leaf : ∀ (mo ml lv : Int) (b : Bounds) (objs : List Point),
      mo ≠ 0 → ml ≠ 0 → TreeInv (.mk mo ml lv b objs none)
  | node : ∀ (mo ml lv : Int) (b : Bounds) (c : Quadtree × Quadtree × Quadtree × Quadtree),
      mo ≠ 0 → ml ≠ 0 → lv < ml →
      (∀ i : Fin 4, (nth4 c i).max_objects = mo) →
      (∀ i : Fin 4, (nth4 c i).max_levels = ml) →
      (∀ i : Fin 4, (nth4 c i).level = lv + 1) →
      (∀ i : Fin 4, (nth4 c i).bounds = quadrantBounds b i) →
      (∀ i : Fin 4, ∀ p ∈ (nth4 c i).allPoints, getIndexForPointB b p = i) →
      (∀ i : Fin 4, TreeInv (nth4 c i)) →
      TreeInv (.mk mo ml lv b [] (some c))

theorem TreeInv_make (b : Bounds) (mo ml lv : Option Int) : TreeInv (Quadtree.make b mo ml lv) :=
  TreeInv.leaf _ _ _ _ _ (jsOr_ne_zero mo 10 (by norm_num)) (jsOr_ne_zero ml 4 (by norm_num))

/-- Fields of `t` and `t2` that `insert` never changes at the call's root. -/
def SameRoot (t t2 : Quadtree) : Prop :=
  t2.max_objects = t.max_objects ∧ t2.max_levels = t.max_levels ∧
    t2.level = t.level ∧ t2.bounds = t.bounds

@[simp] theorem Quadtree.allPoints_leaf (mo ml lv : Int) (b : Bounds) (os : List Point) :
    (Quadtree.mk mo ml lv b os none).allPoints = os := rfl

/-- The redistribution loop succeeds and moves each point into the subnode
`getIndexForPoint` routes it to, preserving each subnode's invariant and
root fields.  `IH` is the induction hypothesis for `insertF` at the same
fuel. -/
theorem redistF_total (fuel : Nat)
    (IH : ∀ (t : Quadtree) (p : Point), TreeInv t → (t.max_levels - t.level).toNat < fuel →
      ∃ t2, insertF fuel t p = some t2 ∧ TreeInv t2 ∧ SameRoot t t2 ∧
        ∀ q, q ∈ t2.allPoints ↔ q ∈ t.allPoints ∨ q = p)
    (b : Bounds) (mo ml lv : Int) (hfuel : (ml - (lv + 1)).toNat < fuel) :
    ∀ (ps : List Point) (c : Quadtree × Quadtree × Quadtree × Quadtree),
      (∀ i : Fin 4, (nth4 c i).max_objects = mo) →
      (∀ i : Fin 4, (nth4 c i).max_levels = ml) →
      (∀ i : Fin 4, (nth4 c i).level = lv + 1) →
      (∀ i : Fin 4, (nth4 c i).bounds = quadrantBounds b i) →
      (∀ i : Fin 4, TreeInv (nth4 c i)) →
      ∃ c2, redistF (insertF fuel) b ps c = some c2 ∧
        (∀ i : Fin 4, (nth4 c2 i).max_objects = mo) ∧
        (∀ i : Fin 4, (nth4 c2 i).max_levels = ml) ∧
        (∀ i : Fin 4, (nth4 c2 i).level = lv + 1) ∧
        (∀ i : Fin 4, (nth4 c2 i).bounds = quadrantBounds b i) ∧
        (∀ i : Fin 4, TreeInv (nth4 c2 i)) ∧
        (∀ (i : Fin 4) (q : Point), q ∈ (nth4 c2 i).allPoints ↔
          q ∈ (nth4 c i).allPoints ∨ (q ∈ ps ∧ getIndexForPointB b q = i)) := by
  intro ps
  induction ps with
  | nil =>
    intro c h1 h2 h3 h4 h5
    exact ⟨c, by simp only [redistF], h1, h2, h3, h4, h5, fun i q => by simp⟩
  | cons p rest IHps =>
    intro c h1 h2 h3 h4 h5
    obtain ⟨child2, hc2, hInv2, ⟨s1, s2, s3, s4⟩, hmem⟩ :=
      IH (nth4 c (getIndexForPointB b p)) p (h5 _)
        (by rw [h2 (getIndexForPointB b p), h3 (getIndexForPointB b p)]; exact hfuel)
    have u1 : ∀ i : Fin 4, (nth4 (set4 c (getIndexForPointB b p) child2) i).max_objects = mo := by
      intro i
      by_cases hi : i = getIndexForPointB b p
      · subst hi; rw [nth4_set4_same, s1, h1]
      · rw [nth4_set4_ne _ _ _ _ hi]; exact h1 i
    have u2 : ∀ i : Fin 4, (nth4 (set4 c (getIndexForPointB b p) child2) i).max_levels = ml := by
      intro i
      by_cases hi : i = getIndexForPointB b p
      · subst hi; rw [nth4_set4_same, s2, h2]
      · rw [nth4_set4_ne _ _ _ _ hi]; exact h2 i
    have u3 : ∀ i : Fin 4, (nth4 (set4 c (getIndexForPointB b p) child2) i).level = lv + 1 := by
      intro i
      by_cases hi : i = getIndexForPointB b p
      · subst hi; rw [nth4_set4_same, s3, h3]
      · rw [nth4_set4_ne _ _ _ _ hi]; exact h3 i
    have u4 : ∀ i : Fin 4,
        (nth4 (set4 c (getIndexForPointB b p) child2) i).bounds = quadrantBounds b i := by
      intro i
      by_cases hi : i = getIndexForPointB b p
      · subst hi; rw [nth4_set4_same, s4, h4]
      · rw [nth4_set4_ne _ _ _ _ hi]; exact h4 i
    have u5 : ∀ i : Fin 4, TreeInv (nth4 (set4 c (getIndexForPointB b p) child2) i) := by
      intro i
      by_cases hi : i = getIndexForPointB b p
      · subst hi; rw [nth4_set4_same]; exact hInv2
      · rw [nth4_set4_ne _ _ _ _ hi]; exact h5 i
    obtain ⟨c2, hrest, g1, g2, g3, g4, g5, g6⟩ :=
      IHps (set4 c (getIndexForPointB b p) child2) u1 u2 u3 u4 u5
    refine ⟨c2, ?_, g1, g2, g3, g4, g5, ?_⟩
    · simp only [redistF]
      rw [hc2]
      exact hrest
    · intro i q
      rw [g6 i q]
      by_cases hi : i = getIndexForPointB b p
      · subst hi
        rw [nth4_set4_same, hmem q]
        constructor
        · rintro ((h | h) | ⟨h, h2⟩)
          · exact Or.inl h
          · exact Or.inr ⟨by simp [h], by rw [h]⟩
          · exact Or.inr ⟨List.mem_cons_of_mem _ h, h2⟩
        · rintro (h | ⟨h, h2⟩)
          · exact Or.inl (Or.inl h)
          · rcases List.mem_cons.mp h with h3 | h3
            · exact Or.inl (Or.inr h3)
            · exact Or.inr ⟨h3, h2⟩
      · rw [nth4_set4_ne _ _ _ _ hi]
        constructor
        · rintro (h | ⟨h, h2⟩)
          · exact Or.inl h
          · exact Or.inr ⟨List.mem_cons_of_mem _ h, h2⟩
        · rintro (h | ⟨h, h2⟩)
          · exact Or.inl h
          · rcases List.mem_cons.mp h with h3 | h3
            · exfalso; apply hi; rw [← h2, h3]
            · exact Or.inr ⟨h3, h2⟩

/-- Main theorem about `insertF`: with fuel exceeding the depth budget
`(max_levels - level).toNat`, insertion into an invariant-satisfying tree
succeeds, preserves the invariant and the root fields, and adds exactly
the inserted point to the stored points. -/
theorem insertF_total : ∀ (fuel : Nat) (t : Quadtree) (p : Point),
    TreeInv t → (t.max_levels - t.level).toNat < fuel →
    ∃ t2, insertF fuel t p = some t2 ∧ TreeInv t2 ∧ SameRoot t t2 ∧
      ∀ q, q ∈ t2.allPoints ↔ q ∈ t.allPoints ∨ q = p := by
  intro fuel
  induction fuel with
  | zero => intro t p _ h; omega
  | succ fuel IH =>
    intro t p hInv hfuel
    cases hInv with
    | node mo ml lv b c hmo hml hlv h1 h2 h3 h4 hroute h5 =>
      simp only [Quadtree.max_levels_mk, Quadtree.level_mk] at hfuel
      obtain ⟨child2, hc2, hInv2, ⟨s1, s2, s3, s4⟩, hmem⟩ :=
        IH (nth4 c (getIndexForPointB b p)) p (h5 _)
          (by rw [h2 (getIndexForPointB b p), h3 (getIndexForPointB b p)]; omega)
      refine ⟨.mk mo ml lv b [] (some (set4 c (getIndexForPointB b p) child2)), ?_, ?_, ?_, ?_⟩
      · simp only [insertF, insertStep]
        rw [hc2]
      · refine TreeInv.node mo ml lv b _ hmo hml hlv ?_ ?_ ?_ ?_ ?_ ?_
        · intro i
          by_cases hi : i = getIndexForPointB b p
          · subst hi; rw [nth4_set4_same, s1, h1]
          · rw [nth4_set4_ne _ _ _ _ hi]; exact h1 i
        · intro i
          by_cases hi : i = getIndexForPointB b p
          · subst hi; rw [nth4_set4_same, s2, h2]
          · rw [nth4_set4_ne _ _ _ _ hi]; exact h2 i
        · intro i
          by_cases hi : i = getIndexForPointB b p
          · subst hi; rw [nth4_set4_same, s3, h3]
          · rw [nth4_set4_ne _ _ _ _ hi]; exact h3 i
        · intro i
          by_cases hi : i = getIndexForPointB b p
          · subst hi; rw [nth4_set4_same, s4, h4]
          · rw [nth4_set4_ne _ _ _ _ hi]; exact h4 i
        · intro i q hq
          by_cases hi : i = getIndexForPointB b p
          · subst hi
            rw [nth4_set4_same] at hq
            rcases (hmem q).1 hq with h | h
            · exact hroute _ q h
            · rw [h]
          · rw [nth4_set4_ne _ _ _ _ hi] at hq
            exact hroute i q hq
        · intro i
          by_cases hi : i = getIndexForPointB b p
          · subst hi; rw [nth4_set4_same]; exact hInv2
          · rw [nth4_set4_ne _ _ _ _ hi]; exact h5 i
      · exact ⟨rfl, rfl, rfl, rfl⟩
      · intro q
        rw [mem_allPoints_node, mem_allPoints_node]
        constructor
        · rintro (h | ⟨i, hqi⟩)
          · exact absurd h (List.not_mem_nil q)
          · by_cases hi : i = getIndexForPointB b p
            · subst hi
              rw [nth4_set4_same] at hqi
              rcases (hmem q).1 hqi with h | h
              · exact Or.inl (Or.inr ⟨_, h⟩)
              · exact Or.inr h
            · rw [nth4_set4_ne _ _ _ _ hi] at hqi
              exact Or.inl (Or.inr ⟨i, hqi⟩)
        · rintro ((h | ⟨i, hqi⟩) | hqp)
          · exact absurd h (List.not_mem_nil q)
          · by_cases hi : i = getIndexForPointB b p
            · subst hi
              exact Or.inr ⟨_, by rw [nth4_set4_same]; exact (hmem q).2 (Or.inl hqi)⟩
            · exact Or.inr ⟨i, by rw [nth4_set4_ne _ _ _ _ hi]; exact hqi⟩
          · exact Or.inr ⟨_, by rw [nth4_set4_same]; exact (hmem q).2 (Or.inr hqp)⟩
    | leaf mo ml lv b objs hmo hml =>
      simp only [Quadtree.max_levels_mk, Quadtree.level_mk] at hfuel
      by_cases hover : (((objs ++ [p]).length : Int) > mo ∧ lv < ml)
      · obtain ⟨ho1, ho2⟩ := hover
        obtain ⟨c2, hred, g1, g2, g3, g4, g5, g6⟩ :=
          redistF_total fuel IH b mo ml lv (by omega) (objs ++ [p]) (splitChildren mo ml lv b)
            (fun i => by rw [nth4_splitChildren, Quadtree.make_eval _ _ _ _ hmo hml]; rfl)
            (fun i => by rw [nth4_splitChildren, Quadtree.make_eval _ _ _ _ hmo hml]; rfl)
            (fun i => by rw [nth4_splitChildren, Quadtree.make_eval _ _ _ _ hmo hml]; rfl)
            (fun i => by rw [nth4_splitChildren, Quadtree.make_eval _ _ _ _ hmo hml]; rfl)
            (fun i => by
              rw [nth4_splitChildren, Quadtree.make_eval _ _ _ _ hmo hml]
              exact TreeInv.leaf _ _ _ _ _ hmo hml)
        have hfresh : ∀ i : Fin 4, (nth4 (splitChildren mo ml lv b) i).allPoints = [] := by
          intro i
          rw [nth4_splitChildren, Quadtree.make_eval _ _ _ _ hmo hml]
          rfl
        refine ⟨.mk mo ml lv b [] (some c2), ?_, ?_, ?_, ?_⟩
        · simp only [insertF, insertStep]
          rw [if_pos (show (((objs ++ [p]).length : Int) > mo ∧ lv < ml) from ⟨ho1, ho2⟩), hred]
        · refine TreeInv.node mo ml lv b c2 hmo hml ho2 g1 g2 g3 g4 ?_ g5
          intro i q hq
          rcases (g6 i q).1 hq with h | ⟨_, h⟩
          · rw [hfresh i] at h
            exact absurd h (List.not_mem_nil q)
          · exact h
        · exact ⟨rfl, rfl, rfl, rfl⟩
        · intro q
          rw [mem_allPoints_node]
          constructor
          · rintro (h | ⟨i, hqi⟩)
            · exact absurd h (List.not_mem_nil q)
            · rcases (g6 i q).1 hqi with h | ⟨h, _⟩
              · rw [hfresh i] at h
                exact absurd h (List.not_mem_nil q)
              · simpa using h
          · intro h
            have hq : q ∈ objs ++ [p] := by simpa using h
            exact Or.inr ⟨getIndexForPointB b q, (g6 _ q).2 (Or.inr ⟨hq, rfl⟩)⟩
      · refine ⟨.mk mo ml lv b (objs ++ [p]) none, ?_, ?_, ?_, ?_⟩
        · simp only [insertF, insertStep]
          rw [if_neg hover]
        · exact TreeInv.leaf _ _ _ _ _ hmo hml
        · exact ⟨rfl, rfl, rfl, rfl⟩
        · intro q
          simp

/-- `insert` with its actual fuel `(max_levels - level).toNat + 1` always
succeeds on an invariant-satisfying tree. -/
theorem insert_total (t : Quadtree) (p : Point) (h : TreeInv t) :
    ∃ t2, t.insert p = some t2 ∧ TreeInv t2 ∧ SameRoot t t2 ∧
      ∀ q, q ∈ t2.allPoints ↔ q ∈ t.allPoints ∨ q = p :=
  insertF_total (fuelFor t) t p h (by unfold fuelFor; omega)

theorem insertList_total (ps : List Point) : ∀ (t : Quadtree), TreeInv t →
    ∃ t2, insertList t ps = some t2 ∧ TreeInv t2 ∧ SameRoot t t2 ∧
      ∀ q, q ∈ t2.allPoints ↔ q ∈ t.allPoints ∨ q ∈ ps := by
  induction ps with
  | nil =>
    intro t h
    exact ⟨t, rfl, h, ⟨rfl, rfl, rfl, rfl⟩, by simp⟩
  | cons p rest IH =>
    intro t h
    obtain ⟨t1, h1, hi1, ⟨a1, a2, a3, a4⟩, hm1⟩ := insert_total t p h
    obtain ⟨t2, h2, hi2, ⟨b1, b2, b3, b4⟩, hm2⟩ := IH t1 hi1
    refine ⟨t2, ?_, hi2, ⟨b1.trans a1, b2.trans a2, b3.trans a3, b4.trans a4⟩, ?_⟩
    · simp only [insertList]
      rw [h1]
      exact h2
    · intro q
      rw [hm2 q, hm1 q, List.mem_cons]
      tauto

theorem Reachable.treeInv {t : Quadtree} (h : Reachable t) :
    TreeInv t ∧ t.level = 0 ∧ t.max_objects ≠ 0 ∧ t.max_levels ≠ 0 := by
  obtain ⟨b, mo, ml, ps, hps⟩ := h
  obtain ⟨t2, h2, hi2, ⟨s1, s2, s3, s4⟩, _⟩ := insertList_total ps _ (TreeInv_make b mo ml none)
  rw [hps] at h2
  cases h2
  refine ⟨hi2, ?_, ?_, ?_⟩
  · rw [s3]; rfl
  · rw [s1]; exact jsOr_ne_zero mo 10 (by norm_num)
  · rw [s2]; exact jsOr_ne_zero ml 4 (by norm_num)

/-- Geometry: each quadrant is contained in its (nonnegatively sized)
parent rectangle and has nonnegative width and height itself. -/
theorem quadrant_sub (b : Bounds) (i : Fin 4) (hw : 0 ≤ b.width) (hh : 0 ≤ b.height) :
    b.left ≤ (quadrantBounds b i).left ∧ (quadrantBounds b i).right ≤ b.right ∧
      b.bottom ≤ (quadrantBounds b i).bottom ∧ (quadrantBounds b i).top ≤ b.top ∧
      0 ≤ (quadrantBounds b i).width ∧ 0 ≤ (quadrantBounds b i).height := by
  rw [Bounds.width] at hw
  rw [Bounds.height] at hh
  fin_cases i <;>
    refine ⟨?_, ?_, ?_, ?_, ?_, ?_⟩ <;>
    dsimp only [quadrantBounds, Bounds.width, Bounds.height] <;>
    linarith

theorem mem_ALL_NODES (i : Fin 4) : i ∈ ALL_NODES := by
  fin_cases i <;> simp [ALL_NODES]

/-- Core of the containment property: if the node's bounds (of
nonnegative size) lie inside the query rectangle, `retrieve` returns every
stored point. -/
theorem mem_retrieve_of_sub (R : Bounds) (t : Quadtree) (hInv : TreeInv t) :
    R.left ≤ t.bounds.left → t.bounds.right ≤ R.right →
    R.bottom ≤ t.bounds.bottom → t.bounds.top ≤ R.top →
    0 ≤ t.bounds.width → 0 ≤ t.bounds.height →
    ∀ q ∈ t.allPoints, q ∈ t.retrieve R := by
  induction hInv with
  | leaf mo ml lv b objs hmo hml =>
    intro _ _ _ _ _ _ q hq
    exact hq
  | node mo ml lv b c hmo hml hlv h1 h2 h3 h4 hroute h5 ih =>
    intro c1 c2 c3 c4 chw chh q hq
    simp only [Quadtree.bounds_mk] at c1 c2 c3 c4 chw chh
    rcases (mem_allPoints_node mo ml lv b [] c q).1 hq with h | ⟨i, hqi⟩
    · exact absurd h (List.not_mem_nil q)
    · rw [Quadtree.retrieve_node]
      have hfast : (Quadtree.mk mo ml lv b [] (some c)).getIndexForRect R = ALL_NODES := by
        rw [Quadtree.getIndexForRect, if_pos]
        exact ⟨c1, c2, c3, c4⟩
      rw [hfast]
      refine List.mem_append_right _ ?_
      rw [List.mem_flatten]
      refine ⟨(nth4 c i).retrieve R, List.mem_map_of_mem _ (mem_ALL_NODES i), ?_⟩
      have hq := quadrant_sub b i chw chh
      refine ih i ?_ ?_ ?_ ?_ ?_ ?_ q hqi <;> rw [h4 i]
      · linarith [hq.1]
      · linarith [hq.2.1]
      · linarith [hq.2.2.1]
      · linarith [hq.2.2.2.1]
      · exact hq.2.2.2.2.1
      · exact hq.2.2.2.2.2

/-- Core of the (amended) superset property: a stored point that lies
inside the node's bounds and inside the query rectangle is returned by
`retrieve`. -/
theorem mem_retrieve_of_memB (R : Bounds) (t : Quadtree) (hInv : TreeInv t) :
    ∀ q ∈ t.allPoints, memB t.bounds q → memB R q → q ∈ t.retrieve R := by
  induction hInv with
  | leaf mo ml lv b objs hmo hml =>
    intro q hq _ _
    exact hq
  | node mo ml lv b c hmo hml hlv h1 h2 h3 h4 hroute h5 ih =>
    intro q hq hqb hqR
    simp only [Quadtree.bounds_mk] at hqb
    rcases (mem_allPoints_node mo ml lv b [] c q).1 hq with h | ⟨i, hqi⟩
    · exact absurd h (List.not_mem_nil q)
    · have hidx : getIndexForPointB b q = i := hroute i q hqi
      have hqc : memB (nth4 c i).bounds q := by
        rw [h4 i, ← hidx]
        exact memB_quadrant_of_index b q hqb
      have hmemi : i ∈ (Quadtree.mk mo ml lv b [] (some c)).getIndexForRect R := by
        rw [Quadtree.getIndexForRect]
        split_ifs with hfast
        · exact mem_ALL_NODES i
        · simp only [Quadtree.nodes_mk, List.mem_filter]
          exact ⟨by simp [List.mem_finRange], hasIntersection_of_common _ R q hqc hqR⟩
      rw [Quadtree.retrieve_node]
      refine List.mem_append_right _ ?_
      rw [List.mem_flatten]
      exact ⟨(nth4 c i).retrieve R, List.mem_map_of_mem _ hmemi, ih i q hqi hqc hqR⟩

/-! ### The depth-cap cascade (claim C4) -/

@[simp] theorem set4_nth4_self (c : Quadtree × Quadtree × Quadtree × Quadtree) (i : Fin 4) :
    set4 c i (nth4 c i) = c := by
  obtain ⟨n0, n1, n2, n3⟩ := c
  fin_cases i <;> rfl

@[simp] theorem set4_set4_same (c : Quadtree × Quadtree × Quadtree × Quadtree) (i : Fin 4)
    (x y : Quadtree) : set4 (set4 c i x) i y = set4 c i y := by
  fin_cases i <;> rfl

/-- Sequential insertion with a fixed fuel. -/
def insertSeqF (fuel : Nat) : Quadtree → List Point → Option Quadtree
  | t, [] => some t
  | t, p :: ps =>
      match insertF fuel t p with
      | none => none
      | some t2 => insertSeqF fuel t2 ps

/-- When every redistributed point routes to the same index `i`, the
redistribution loop is sequential insertion into subnode `i`. -/
theorem redistF_uniform (fuel : Nat) (b : Bounds) (i : Fin 4) :
    ∀ (rs : List Point) (c : Quadtree × Quadtree × Quadtree × Quadtree),
      (∀ q ∈ rs, getIndexForPointB b q = i) →
      redistF (insertF fuel) b rs c =
        (insertSeqF fuel (nth4 c i) rs).map (fun x => set4 c i x) := by
  intro rs
  induction rs with
  | nil =>
    intro c _
    simp only [redistF, insertSeqF, Option.map, set4_nth4_self]
  | cons r rest IH =>
    intro c hall
    have hr : getIndexForPointB b r = i := hall r (List.mem_cons_self r rest)
    simp only [redistF, insertSeqF, hr]
    cases hins : insertF fuel (nth4 c i) r with
    | none => simp
    | some child =>
      simp only [Option.map]
      rw [IH (set4 c i child) (fun q hq => hall q (List.mem_cons_of_mem _ hq))]
      rw [nth4_set4_same]
      cases hseq : insertSeqF fuel child rest with
      | none => simp
      | some final => simp [set4_set4_same]

/-- The bounds of the chain of quadrants a reference point `p0` descends
through starting from `b`. -/
def iterBounds (p0 : Point) : Bounds → Nat → Bounds
  | b, 0 => b
  | b, k + 1 => iterBounds p0 (quadrantBounds b (getIndexForPointB b p0)) k

/-- `p` is routed exactly like `p0` at each of the first `d` levels of the
chain of `p0` from `b` — the formalization of "maps to the same child
index at every level". -/
def UnifAt (b : Bounds) (p0 : Point) (d : Nat) (p : Point) : Prop :=
  ∀ k < d, getIndexForPointB (iterBounds p0 b k) p = getIndexForPointB (iterBounds p0 b k) p0

instance (b : Bounds) (p0 : Point) (d : Nat) (p : Point) : Decidable (UnifAt b p0 d p) := by
  unfold UnifAt; infer_instance

theorem UnifAt.step {b : Bounds} {p0 : Point} {d : Nat} {p : Point}
    (h : UnifAt b p0 (d + 1) p) :
    UnifAt (quadrantBounds b (getIndexForPointB b p0)) p0 d p := by
  intro k hk
  exact h (k + 1) (by omega)

theorem UnifAt.zero {b : Bounds} {p0 : Point} {d : Nat} {p : Point}
    (h : UnifAt b p0 d p) (hd : 0 < d) : getIndexForPointB b p = getIndexForPointB b p0 :=
  h 0 hd

/-- The cascade tree: inserting an overfull uniformly-routed list into a
fresh leaf yields a chain of split nodes from `lv` down to the depth cap,
with the whole list stored in the deepest leaf and the three untouched
quadrants left as fresh leaves. -/
def chainTree (mo ml : Int) (p0 : Point) (b : Bounds) (lv : Int) (qs : List Point) : Quadtree :=
  if h : ((qs.length : Int) > mo ∧ lv < ml) then
    Quadtree.mk mo ml lv b []
      (some (set4 (splitChildren mo ml lv b) (getIndexForPointB b p0)
        (chainTree mo ml p0 (quadrantBounds b (getIndexForPointB b p0)) (lv + 1) qs)))
  else
    Quadtree.mk mo ml lv b qs none
termination_by (ml - lv).toNat
decreasing_by
  obtain ⟨-, h2⟩ := h
  omega

/-- Iterating a single-insert step over a list, at fixed fuel. -/
theorem insertSeqF_steps (fuel : Nat) (T : List Point → Quadtree) (P : Point → Prop)
    (hstep : ∀ qs p, (∀ q ∈ qs, P q) → P p →
      insertF fuel (T qs) p = some (T (qs ++ [p]))) :
    ∀ (rs qs : List Point), (∀ q ∈ qs, P q) → (∀ q ∈ rs, P q) →
      insertSeqF fuel (T qs) rs = some (T (qs ++ rs)) := by
  intro rs
  induction rs with
  | nil =>
    intro qs _ _
    simp [insertSeqF]
  | cons r rest IH =>
    intro qs hqs hrs
    have h1 := hstep qs r hqs (hrs r (List.mem_cons_self r rest))
    have h2 := IH (qs ++ [r])
      (by
        intro q hq
        rcases List.mem_append.mp hq with h | h
        · exact hqs q h
        · rw [List.mem_singleton.mp h]
          exact hrs r (List.mem_cons_self r rest))
      (fun q hq => hrs q (List.mem_cons_of_mem _ hq))
    simp only [insertSeqF, h1]
    rw [h2, List.append_assoc]
    rfl

/-- Iterating a single-insert step over a list via the public
`insertList`, when the tree shape keeps the fuel constant. -/
theorem insertList_steps (fuel : Nat) (T : List Point → Quadtree) (P : Point → Prop)
    (hfuel : ∀ qs, fuelFor (T qs) = fuel)
    (hstep : ∀ qs p, (∀ q ∈ qs, P q) → P p →
      insertF fuel (T qs) p = some (T (qs ++ [p]))) :
    ∀ (rs qs : List Point), (∀ q ∈ qs, P q) → (∀ q ∈ rs, P q) →
      insertList (T qs) rs = some (T (qs ++ rs)) := by
  intro rs
  induction rs with
  | nil =>
    intro qs _ _
    simp [insertList]
  | cons r rest IH =>
    intro qs hqs hrs
    have h1 : (T qs).insert r = some (T (qs ++ [r])) := by
      rw [Quadtree.insert, hfuel qs]
      exact hstep qs r hqs (hrs r (List.mem_cons_self r rest))
    have h2 := IH (qs ++ [r])
      (by
        intro q hq
        rcases List.mem_append.mp hq with h | h
        · exact hqs q h
        · rw [List.mem_singleton.mp h]
          exact hrs r (List.mem_cons_self r rest))
      (fun q hq => hrs q (List.mem_cons_of_mem _ hq))
    simp only [insertList, h1]
    rw [h2, List.append_assoc]
    rfl

/-- Inserting one more uniformly-routed point into a cascade tree extends
its deepest leaf. -/
theorem insertF_chainTree (mo ml : Int) (p0 : Point) (hmo : 1 ≤ mo) :
    ∀ (d : Nat) (b : Bounds) (lv : Int) (qs : List Point) (p : Point),
      d = (ml - lv).toNat → 0 ≤ lv →
      (∀ q ∈ qs, UnifAt b p0 d q) →
      UnifAt b p0 d p →
      insertF (d + 1) (chainTree mo ml p0 b lv qs) p =
        some (chainTree mo ml p0 b lv (qs ++ [p])) := by
  intro d
  induction d using Nat.strong_induction_on with
  | _ d IH =>
    intro b lv qs p hd hlv0 hqs hp
    by_cases hsplit : ((qs.length : Int) > mo ∧ lv < ml)
    · obtain ⟨hlen, hlv⟩ := hsplit
      obtain ⟨e, rfl⟩ : ∃ e, d = e + 1 := ⟨d - 1, by omega⟩
      have hp0 : getIndexForPointB b p = getIndexForPointB b p0 := hp.zero (by omega)
      have hct := IH e (by omega) (quadrantBounds b (getIndexForPointB b p0)) (lv + 1) qs p
        (by omega) (by omega) (fun q hq => (hqs q hq).step) hp.step
      rw [chainTree, dif_pos ⟨hlen, hlv⟩]
      rw [show chainTree mo ml p0 b lv (qs ++ [p]) =
        Quadtree.mk mo ml lv b []
          (some (set4 (splitChildren mo ml lv b) (getIndexForPointB b p0)
            (chainTree mo ml p0 (quadrantBounds b (getIndexForPointB b p0)) (lv + 1)
              (qs ++ [p])))) from by
          rw [chainTree, dif_pos ⟨by rw [List.length_append]; push_cast; omega, hlv⟩]]
      rw [insertF_succ]
      simp only [insertStep, hp0, nth4_set4_same, hct, set4_set4_same]
    · rw [chainTree, dif_neg hsplit]
      by_cases hlv : lv < ml
      · have hlen : ¬((qs.length : Int) > mo) := fun h => hsplit ⟨h, hlv⟩
        obtain ⟨e, rfl⟩ : ∃ e, d = e + 1 := ⟨d - 1, by omega⟩
        by_cases hfull : ((qs.length : Int) + 1 > mo)
        · -- the leaf overflows: the cascade starts
          have hcond : (((qs ++ [p]).length : Int) > mo ∧ lv < ml) := by
            constructor
            · rw [List.length_append, List.length_singleton]
              push_cast
              omega
            · exact hlv
          have hml : ml ≠ 0 := by omega
          have hmo0 : mo ≠ 0 := by omega
          have hall : ∀ q ∈ qs ++ [p],
              getIndexForPointB b q = getIndexForPointB b p0 := by
            intro q hq
            rcases List.mem_append.mp hq with h | h
            · exact (hqs q h).zero (by omega)
            · rw [List.mem_singleton.mp h]
              exact hp.zero (by omega)
          have hfresh : nth4 (splitChildren mo ml lv b) (getIndexForPointB b p0) =
              chainTree mo ml p0 (quadrantBounds b (getIndexForPointB b p0)) (lv + 1) [] := by
            rw [nth4_splitChildren, Quadtree.make_eval _ _ _ _ hmo0 hml,
              chainTree, dif_neg (by simp only [List.length_nil]; push_cast; omega)]
          have hseq := insertSeqF_steps (e + 1)
            (fun qs2 => chainTree mo ml p0 (quadrantBounds b (getIndexForPointB b p0)) (lv + 1) qs2)
            (UnifAt (quadrantBounds b (getIndexForPointB b p0)) p0 e)
            (fun qs2 p2 hq2 hp2 => IH e (by omega) _ (lv + 1) qs2 p2 (by omega) (by omega) hq2 hp2)
            (qs ++ [p]) [] (by intro q hq; exact absurd hq (List.not_mem_nil q))
            (by
              intro q hq
              rcases List.mem_append.mp hq with h | h
              · exact (hqs q h).step
              · rw [List.mem_singleton.mp h]
                exact hp.step)
          rw [insertF_succ]
          simp only [insertStep]
          rw [if_pos hcond,
            redistF_uniform (e + 1) b (getIndexForPointB b p0) (qs ++ [p]) _ hall,
            hfresh, hseq]
          simp only [List.nil_append, Option.map]
          conv_rhs => rw [chainTree]
          rw [dif_pos hcond]
        · -- still below capacity: the leaf just grows
          simp only [insertF, insertStep]
          rw [if_neg (by
            intro hc
            apply hfull
            rw [List.length_append, List.length_singleton] at hc
            push_cast at hc
            omega)]
          rw [chainTree, dif_neg (by
            intro hc
            apply hfull
            rw [List.length_append, List.length_singleton] at hc
            push_cast at hc
            omega)]
      · -- at or past the depth cap: the leaf never splits
        simp only [insertF, insertStep]
        rw [if_neg (fun hc => hlv hc.2)]
        rw [chainTree, dif_neg (fun hc => hlv hc.2)]

theorem Quadtree.depth_set4_fresh (mo ml lv : Int) (b : Bounds) (i : Fin 4) (x : Quadtree) :
    (Quadtree.mk mo ml lv b [] (some (set4 (splitChildren mo ml lv b) i x))).depth =
      1 + x.depth := by
  fin_cases i <;>
    simp [set4, splitChildren, Quadtree.make, Quadtree.depth]

/-- The cascade tree has depth exactly `(ml - lv).toNat`. -/
theorem chainTree_depth (mo ml : Int) (p0 : Point) :
    ∀ (d : Nat) (b : Bounds) (lv : Int) (qs : List Point),
      d = (ml - lv).toNat →
      ((qs.length : Int) > mo ∧ lv < ml) →
      (chainTree mo ml p0 b lv qs).depth = d := by
  intro d
  induction d using Nat.strong_induction_on with
  | _ d IH =>
    intro b lv qs hd hcond
    obtain ⟨hlen, hlv⟩ := hcond
    obtain ⟨e, rfl⟩ : ∃ e, d = e + 1 := ⟨d - 1, by omega⟩
    rw [chainTree, dif_pos ⟨hlen, hlv⟩, Quadtree.depth_set4_fresh]
    by_cases hlv2 : lv + 1 < ml
    · rw [IH e (by omega) _ (lv + 1) qs (by omega) ⟨hlen, hlv2⟩]
      omega
    · rw [chainTree, dif_neg (fun hc => hlv2 hc.2)]
      have he : e = 0 := by omega
      simp [Quadtree.depth, he]

/-- The child indices along the chain of `p0` from `b`. -/
def chainPath (p0 : Point) : Bounds → Nat → List (Fin 4)
  | _, 0 => []
  | b, d + 1 =>
      getIndexForPointB b p0 :: chainPath p0 (quadrantBounds b (getIndexForPointB b p0)) d

theorem chainPath_length (p0 : Point) :
    ∀ (d : Nat) (b : Bounds), (chainPath p0 b d).length = d := by
  intro d
  induction d with
  | zero => intro b; rfl
  | succ e IH => intro b; simp [chainPath, IH]

/-- Following the chain from the top of a cascade tree reaches a leaf at
level `lv + d` holding the entire list. -/
theorem chainTree_follow (mo ml : Int) (p0 : Point) :
    ∀ (d : Nat) (b : Bounds) (lv : Int) (qs : List Point),
      d = (ml - lv).toNat →
      ((qs.length : Int) > mo ∧ lv < ml) →
      ∃ bd : Bounds, (chainTree mo ml p0 b lv qs).follow (chainPath p0 b d) =
        some (Quadtree.mk mo ml (lv + (d : Int)) bd qs none) := by
  intro d
  induction d using Nat.strong_induction_on with
  | _ d IH =>
    intro b lv qs hd hcond
    obtain ⟨hlen, hlv⟩ := hcond
    obtain ⟨e, rfl⟩ : ∃ e, d = e + 1 := ⟨d - 1, by omega⟩
    rw [chainTree, dif_pos ⟨hlen, hlv⟩]
    simp only [chainPath, Quadtree.follow, nth4_set4_same]
    by_cases hlv2 : lv + 1 < ml
    · obtain ⟨bd, hbd⟩ := IH e (by omega) (quadrantBounds b (getIndexForPointB b p0))
        (lv + 1) qs (by omega) ⟨hlen, hlv2⟩
      refine ⟨bd, ?_⟩
      rw [hbd]
      have harith : lv + 1 + (e : Int) = lv + ((e : Int) + 1) := by ring
      rw [harith]
      push_cast
      ring_nf
    · have he : e = 0 := by omega
      subst he
      refine ⟨quadrantBounds b (getIndexForPointB b p0), ?_⟩
      rw [chainTree, dif_neg (fun hc => hlv2 hc.2)]
      simp [chainPath, Quadtree.follow]

/-- Inserting a uniformly-routed overfull list into a freshly constructed
root produces exactly the cascade tree. -/
theorem insertList_chainTree (mo ml : Int) (b : Bounds) (p0 : Point) (ps : List Point)
    (hmo : 1 ≤ mo) (hml : 1 ≤ ml)
    (hunif : ∀ p ∈ ps, UnifAt b p0 ml.toNat p) :
    insertList (Quadtree.make b (some mo) (some ml) none) ps =
      some (chainTree mo ml p0 b 0 ps) := by
  have hroot : Quadtree.make b (some mo) (some ml) none = chainTree mo ml p0 b 0 [] := by
    rw [chainTree, dif_neg (by simp only [List.length_nil]; push_cast; omega)]
    unfold Quadtree.make
    rw [show jsOr (some mo) 10 = mo by simp [jsOr]; omega,
      show jsOr (some ml) 4 = ml by simp [jsOr]; omega]
    rfl
  have hfuel : ∀ qs, fuelFor (chainTree mo ml p0 b 0 qs) = ml.toNat + 1 := by
    intro qs
    rw [chainTree]
    split_ifs <;> simp [fuelFor]
  have hall := insertList_steps (ml.toNat + 1) (fun qs => chainTree mo ml p0 b 0 qs)
    (UnifAt b p0 ml.toNat) hfuel
    (fun qs p hq hp => insertF_chainTree mo ml p0 hmo ml.toNat b 0 qs p (by omega) le_rfl hq hp)
    ps [] (fun q hq => absurd hq (List.not_mem_nil q)) hunif
  rw [hroot]
  simpa using hall

/-! ### Claim theorems -/

attribute [local semireducible] Rat.add Rat.sub Rat.mul Rat.inv in
/-- C8: for every node and point, `getIndexForPoint` returns a definite
index in `{0,1,2,3}`: 3 when `lon > horizontalMid` and `lat > verticalMid`,
0 when `lon > horizontalMid` and `lat ≤ verticalMid`, 2 when
`lon ≤ horizontalMid` and `lat > verticalMid`, 1 otherwise; and on a node
with bounds `{left 0, right 10, bottom 0, top 10}` the points (7,8),
(2,2), (2,8), (7,2) map to 3, 1, 2, 0 respectively. -/
theorem claim_C8_getIndexForPoint :
    (∀ (t : Quadtree) (p : Point),
      t.getIndexForPoint p =
        if p.lon > t.bounds.left + t.bounds.width / 2 then
          (if p.lat > t.bounds.bottom + t.bounds.height / 2 then 3 else 0)
        else
          (if p.lat > t.bounds.bottom + t.bounds.height / 2 then 2 else 1)) ∧
    (∀ (t : Quadtree) (p : Point),
      t.getIndexForPoint p = 0 ∨ t.getIndexForPoint p = 1 ∨
        t.getIndexForPoint p = 2 ∨ t.getIndexForPoint p = 3) ∧
    (Quadtree.make { left := 0, right := 10, top := 10, bottom := 0 }
      none none none).getIndexForPoint { lon := 7, lat := 8 } = 3 ∧
    (Quadtree.make { left := 0, right := 10, top := 10, bottom := 0 }
      none none none).getIndexForPoint { lon := 2, lat := 2 } = 1 ∧
    (Quadtree.make { left := 0, right := 10, top := 10, bottom := 0 }
      none none none).getIndexForPoint { lon := 2, lat := 8 } = 2 ∧
    (Quadtree.make { left := 0, right := 10, top := 10, bottom := 0 }
      none none none).getIndexForPoint { lon := 7, lat := 2 } = 0 := by
  refine ⟨fun t p => rfl, fun t p => ?_, by decide, by decide, by decide, by decide⟩
  generalize t.getIndexForPoint p = i
  fin_cases i <;> simp

/-- C9: in construction, a supplied `0` for `maxObjects`, `maxLevels` or
`level` behaves like an absent argument (defaults 10, 4, 0), so a
constructed node never has `maxObjects = 0` or `maxLevels = 0`; a negative
supplied value is stored as given. -/
theorem claim_C9_constructor_defaults (b : Bounds) (v : Int) (hv : v < 0) :
    Quadtree.make b none none none = Quadtree.mk 10 4 0 b [] none ∧
    Quadtree.make b (some 0) (some 0) (some 0) = Quadtree.mk 10 4 0 b [] none ∧
    Quadtree.make b (some v) none none = Quadtree.mk v 4 0 b [] none ∧
    Quadtree.make b none (some v) none = Quadtree.mk 10 v 0 b [] none ∧
    Quadtree.make b none none (some v) = Quadtree.mk 10 4 v b [] none ∧
    (∀ mo ml lv : Option Int, (Quadtree.make b mo ml lv).max_objects ≠ 0 ∧
      (Quadtree.make b mo ml lv).max_levels ≠ 0) := by
  refine ⟨rfl, rfl, ?_, ?_, ?_, ?_⟩
  · rw [Quadtree.make, show jsOr (some v) 10 = v by simp [jsOr]; omega]
    rfl
  · rw [Quadtree.make, show jsOr (some v) 4 = v by simp [jsOr]; omega]
    rfl
  · rw [Quadtree.make, jsOr_some_zero_default]
    rfl
  · intro mo ml lv
    exact ⟨jsOr_ne_zero mo 10 (by norm_num), jsOr_ne_zero ml 4 (by norm_num)⟩

theorem claim_C9_witness :
    ((-3 : Int) < 0) ∧
      (Quadtree.make { left := 0, right := 1, top := 1, bottom := 0 } none none none =
          Quadtree.mk 10 4 0 { left := 0, right := 1, top := 1, bottom := 0 } [] none ∧
        Quadtree.make { left := 0, right := 1, top := 1, bottom := 0 }
            (some 0) (some 0) (some 0) =
          Quadtree.mk 10 4 0 { left := 0, right := 1, top := 1, bottom := 0 } [] none ∧
        Quadtree.make { left := 0, right := 1, top := 1, bottom := 0 } (some (-3)) none none =
          Quadtree.mk (-3) 4 0 { left := 0, right := 1, top := 1, bottom := 0 } [] none ∧
        Quadtree.make { left := 0, right := 1, top := 1, bottom := 0 } none (some (-3)) none =
          Quadtree.mk 10 (-3) 0 { left := 0, right := 1, top := 1, bottom := 0 } [] none ∧
        Quadtree.make { left := 0, right := 1, top := 1, bottom := 0 } none none (some (-3)) =
          Quadtree.mk 10 4 (-3) { left := 0, right := 1, top := 1, bottom := 0 } [] none ∧
        (∀ mo ml lv : Option Int,
          (Quadtree.make { left := 0, right := 1, top := 1, bottom := 0 }
            mo ml lv).max_objects ≠ 0 ∧
          (Quadtree.make { left := 0, right := 1, top := 1, bottom := 0 }
            mo ml lv).max_levels ≠ 0)) :=
  ⟨by norm_num, claim_C9_constructor_defaults _ (-3) (by norm_num)⟩

/-- C6: `split` on a (constructed, hence nonzero-policy) node creates
exactly four subnodes, each with `level = parent.level + 1` and the
parent's `max_objects`/`max_levels`, with the stated quadrant bounds;
and under the spec's bounds convention the four quadrants tile the parent
exactly: every point of the parent lies in some quadrant and distinct
quadrants have disjoint interiors. -/
theorem claim_C6_split (mo ml lv : Int) (b : Bounds) (os : List Point)
    (ns : Option (Quadtree × Quadtree × Quadtree × Quadtree))
    (hmo : mo ≠ 0) (hml : ml ≠ 0) :
    (Quadtree.mk mo ml lv b os ns).split =
      Quadtree.mk mo ml lv b os (some
        (Quadtree.mk mo ml (lv + 1)
          { left := b.left + b.width / 2, bottom := b.bottom,
            right := b.right, top := b.bottom + b.height / 2 } [] none,
         Quadtree.mk mo ml (lv + 1)
          { left := b.left, bottom := b.bottom,
            right := b.left + b.width / 2, top := b.bottom + b.height / 2 } [] none,
         Quadtree.mk mo ml (lv + 1)
          { left := b.left, bottom := b.bottom + b.height / 2,
            right := b.left + b.width / 2, top := b.top } [] none,
         Quadtree.mk mo ml (lv + 1)
          { left := b.left + b.width / 2, bottom := b.bottom + b.height / 2,
            right := b.right, top := b.top } [] none)) ∧
    (b.left ≤ b.right → b.bottom ≤ b.top →
      (∀ p : Point, memB b p ↔ ∃ i : Fin 4, memB (quadrantBounds b i) p) ∧
      (∀ i j : Fin 4, i ≠ j → ∀ p : Point,
        ¬(memInterior (quadrantBounds b i) p ∧ memInterior (quadrantBounds b j) p))) := by
  constructor
  · show Quadtree.mk mo ml lv b os (some (splitChildren mo ml lv b)) = _
    rw [splitChildren, Quadtree.make_eval _ _ _ _ hmo hml, Quadtree.make_eval _ _ _ _ hmo hml,
      Quadtree.make_eval _ _ _ _ hmo hml, Quadtree.make_eval _ _ _ _ hmo hml,
      quadrantBounds_zero, quadrantBounds_one, quadrantBounds_two, quadrantBounds_three]
  · intro hlr hbt
    constructor
    · intro p
      constructor
      · intro hp
        exact ⟨getIndexForPointB b p, memB_quadrant_of_index b p hp⟩
      · rintro ⟨i, hi⟩
        have hw : (0 : ℚ) ≤ b.width := by rw [Bounds.width]; linarith
        have hh : (0 : ℚ) ≤ b.height := by rw [Bounds.height]; linarith
        obtain ⟨q1, q2, q3, q4, -, -⟩ := quadrant_sub b i hw hh
        obtain ⟨m1, m2, m3, m4⟩ := hi
        exact ⟨by linarith, by linarith, by linarith, by linarith⟩
    · intro i j hij p hp
      obtain ⟨hi, hj⟩ := hp
      fin_cases i <;> fin_cases j <;>
        first
        | exact absurd rfl hij
        | (dsimp only [quadrantBounds, memInterior, Bounds.width, Bounds.height] at hi hj
           obtain ⟨a1, a2, a3, a4⟩ := hi
           obtain ⟨c1, c2, c3, c4⟩ := hj
           linarith)

theorem claim_C6_split_witness :
    ((1 : Int) ≠ 0) ∧ ((1 : Int) ≠ 0) ∧
      ((Quadtree.mk 1 1 0 { left := 0, right := 2, top := 2, bottom := 0 } [] none).split =
        Quadtree.mk 1 1 0 { left := 0, right := 2, top := 2, bottom := 0 } [] (some
          (Quadtree.mk 1 1 (0 + 1)
            { left := (0 : ℚ) + (2 - 0) / 2, bottom := 0,
              right := 2, top := (0 : ℚ) + (2 - 0) / 2 } [] none,
           Quadtree.mk 1 1 (0 + 1)
            { left := 0, bottom := 0,
              right := (0 : ℚ) + (2 - 0) / 2, top := (0 : ℚ) + (2 - 0) / 2 } [] none,
           Quadtree.mk 1 1 (0 + 1)
            { left := 0, bottom := (0 : ℚ) + (2 - 0) / 2,
              right := (0 : ℚ) + (2 - 0) / 2, top := 2 } [] none,
           Quadtree.mk 1 1 (0 + 1)
            { left := (0 : ℚ) + (2 - 0) / 2, bottom := (0 : ℚ) + (2 - 0) / 2,
              right := 2, top := 2 } [] none)) ∧
        ((0 : ℚ) ≤ 2 → (0 : ℚ) ≤ 2 →
          (∀ p : Point, memB { left := 0, right := 2, top := 2, bottom := 0 } p ↔
            ∃ i : Fin 4,
              memB (quadrantBounds { left := 0, right := 2, top := 2, bottom := 0 } i) p) ∧
          (∀ i j : Fin 4, i ≠ j → ∀ p : Point,
            ¬(memInterior (quadrantBounds { left := 0, right := 2, top := 2, bottom := 0 } i) p ∧
              memInterior (quadrantBounds { left := 0, right := 2, top := 2, bottom := 0 } j) p)))) :=
  ⟨one_ne_zero, one_ne_zero,
    claim_C6_split 1 1 0 { left := 0, right := 2, top := 2, bottom := 0 } [] none
      one_ne_zero one_ne_zero⟩

/-- C7: on a reachable tree, `clear` empties the root into a fresh leaf:
every retrieval afterwards returns `[]`, bounds/level/policy are
unchanged, there are no subnodes, and the cleared tree is literally the
freshly constructed tree with the same bounds and policy, so subsequent
inserts behave identically to inserts on such a tree. -/
theorem claim_C7_clear (t : Quadtree) (h : Reachable t) :
    (∀ R : Bounds, t.clear.retrieve R = []) ∧
    t.clear.bounds = t.bounds ∧ t.clear.level = t.level ∧
    t.clear.max_objects = t.max_objects ∧ t.clear.max_levels = t.max_levels ∧
    t.clear.nodes = none ∧
    t.clear = Quadtree.make t.bounds (some t.max_objects) (some t.max_levels) none := by
  obtain ⟨-, hlv, hmo, hml⟩ := h.treeInv
  obtain ⟨mo, ml, lv, b, os, ns⟩ := t
  simp only [Quadtree.max_objects_mk, Quadtree.max_levels_mk, Quadtree.level_mk] at hlv hmo hml
  subst hlv
  refine ⟨fun R => rfl, rfl, rfl, rfl, rfl, rfl, ?_⟩
  show Quadtree.mk mo ml 0 b [] none = _
  rw [Quadtree.make]
  simp only [Quadtree.max_objects_mk, Quadtree.max_levels_mk, Quadtree.bounds_mk]
  rw [show jsOr (some mo) 10 = mo by simp [jsOr, hmo],
    show jsOr (some ml) 4 = ml by simp [jsOr, hml]]
  rfl

/-- C10: `insert` terminates on every reachable tree: with fuel
`(max_levels - level).toNat + 1` — one call per level between the node and
the depth cap — the recursion always completes and returns a tree. -/
theorem claim_C10_insert_terminates (t : Quadtree) (p : Point) (h : Reachable t) :
    ∃ t2, t.insert p = some t2 ∧
      insertF ((t.max_levels - t.level).toNat + 1) t p = some t2 := by
  obtain ⟨hInv, -, -, -⟩ := h.treeInv
  obtain ⟨t2, h2, -, -, -⟩ := insert_total t p hInv
  exact ⟨t2, h2, h2⟩

theorem TreeInv.of_mem_subtrees (t : Quadtree) (h : TreeInv t) :
    ∀ s ∈ t.subtrees, TreeInv s := by
  induction h with
  | leaf mo ml lv b objs hmo hml =>
    intro s hs
    simp only [Quadtree.subtrees, List.mem_singleton] at hs
    subst hs
    exact TreeInv.leaf mo ml lv b objs hmo hml
  | node mo ml lv b c hmo hml hlv h1 h2 h3 h4 hroute h5 ih =>
    intro s hs
    obtain ⟨n0, n1, n2, n3⟩ := c
    simp only [Quadtree.subtrees, List.mem_cons, List.mem_append] at hs
    rcases hs with rfl | h0 | hh1 | hh2 | hh3
    · exact TreeInv.node mo ml lv b _ hmo hml hlv h1 h2 h3 h4 hroute h5
    · exact ih 0 s h0
    · exact ih 1 s hh1
    · exact ih 2 s hh2
    · exact ih 3 s hh3

/-- C5: in every reachable tree, every split node (the root or any
descendant whose `nodes` are populated) has an empty `objects` list:
redistribution always moves every stored point into a subnode because
`getIndexForPoint` always yields a definite target. -/
theorem claim_C5_split_nodes_empty (t s : Quadtree) (h : Reachable t)
    (hs : s ∈ t.subtrees) (hsplit : s.nodes ≠ none) : s.objects = [] := by
  obtain ⟨hInv, -, -, -⟩ := h.treeInv
  have hsInv := TreeInv.of_mem_subtrees t hInv s hs
  cases hsInv with
  | leaf mo ml lv b objs hmo hml => exact absurd rfl hsplit
  | node mo ml lv b c hmo hml hlv h1 h2 h3 h4 hroute h5 => rfl

/-- C2: for a root constructed with bounds respecting the spec's
convention (`left ≤ right`, `bottom ≤ top`), any sequence of inserts, and
any query rectangle fully containing the root bounds, `retrieve` returns
every inserted point — no point is lost. -/
theorem claim_C2_retrieve_contains_all (b : Bounds) (mo ml : Option Int)
    (ps : List Point) (t : Quadtree) (R : Bounds)
    (hb1 : b.left ≤ b.right) (hb2 : b.bottom ≤ b.top)
    (ht : insertList (Quadtree.make b mo ml none) ps = some t)
    (hR1 : R.left ≤ b.left) (hR2 : b.right ≤ R.right)
    (hR3 : R.bottom ≤ b.bottom) (hR4 : b.top ≤ R.top) :
    ∀ p ∈ ps, p ∈ t.retrieve R := by
  obtain ⟨t2, h2, hInv, ⟨s1, s2, s3, s4⟩, hmem⟩ :=
    insertList_total ps _ (TreeInv_make b mo ml none)
  rw [ht] at h2
  cases h2
  have hb : t.bounds = b := by rw [s4]; rfl
  intro p hp
  refine mem_retrieve_of_sub R t hInv ?_ ?_ ?_ ?_ ?_ ?_ p ?_
  · rw [hb]; exact hR1
  · rw [hb]; exact hR2
  · rw [hb]; exact hR3
  · rw [hb]; exact hR4
  · rw [hb, Bounds.width]; linarith
  · rw [hb, Bounds.height]; linarith
  · refine (hmem p).2 (Or.inr hp)

/-- C1 (amended): for any constructed root, any inserts and any query
rectangle `R`, every inserted point that lies inside `R` and also inside
the root's bounds is returned by `retrieve R`; the result may contain
additional points.  (Points inserted outside the root's bounds can be
missed — see the counterexample.) -/
theorem claim_C1_retrieve_superset_amended (b : Bounds) (mo ml : Option Int)
    (ps : List Point) (t : Quadtree) (R : Bounds) (p : Point)
    (ht : insertList (Quadtree.make b mo ml none) ps = some t)
    (hp : p ∈ ps) (hpb : memB b p) (hpR : memB R p) :
    p ∈ t.retrieve R := by
  obtain ⟨t2, h2, hInv, ⟨s1, s2, s3, s4⟩, hmem⟩ :=
    insertList_total ps _ (TreeInv_make b mo ml none)
  rw [ht] at h2
  cases h2
  refine mem_retrieve_of_memB R t hInv p ((hmem p).2 (Or.inr hp)) ?_ hpR
  rw [show t.bounds = b by rw [s4]; rfl]
  exact hpb

def cexRoot : Quadtree :=
  Quadtree.make { left := 0, right := 100, top := 100, bottom := 0 } (some 1) none none

def cexPoints : List Point := [{ lon := 1000, lat := 1000 }, { lon := 60, lat := 60 }]

def cexRect : Bounds := { left := 999, right := 1001, top := 1001, bottom := 999 }

attribute [local semireducible] Rat.add Rat.sub Rat.mul Rat.inv in
def cexTree : Quadtree := (insertList cexRoot cexPoints).getD cexRoot

attribute [local semireducible] Rat.add Rat.sub Rat.mul Rat.inv in
/-- C1 counterexample: the claim as stated is false.  Insert the point
(1000,1000) — outside the root bounds 0..100 — followed by (60,60) into a
root with `maxObjects = 1`; the root splits and (1000,1000) ends up in the
top-right subtree whose bounds stop at 100.  The query rectangle
999..1001 × 999..1001 contains (1000,1000), but `getIndexForRect` rejects
every subnode (all have `right ≤ 100 < 999`), so `retrieve` returns `[]`
and the point inside the rectangle is not returned. -/
theorem claim_C1_counterexample :
    insertList cexRoot cexPoints = some cexTree ∧
    memB cexRect { lon := 1000, lat := 1000 } ∧
    { lon := 1000, lat := 1000 } ∉ cexTree.retrieve cexRect := by
  refine ⟨rfl, by decide, by decide⟩

def scRoot : Quadtree :=
  Quadtree.make { left := 0, right := 100, top := 100, bottom := 0 } (some 2) (some 4) none

def scPoints : List Point :=
  [{ lon := 10, lat := 10 }, { lon := 20, lat := 20 }, { lon := 30, lat := 30 }]

attribute [local semireducible] Rat.add Rat.sub Rat.mul Rat.inv in
def scTree : Quadtree := (insertList scRoot scPoints).getD scRoot

attribute [local semireducible] Rat.add Rat.sub Rat.mul Rat.inv in
/-- C3: starting from bounds 0..100 × 0..100 with `maxObjects = 2`,
`maxLevels = 4`, inserting (10,10), (20,20), (30,30) in order leaves the
root split with an empty `objects` list and all three points stored in the
subtree of child index 1 (the other three subtrees are empty);
`retrieve` on 0..50 × 0..50 returns exactly the three points and
`retrieve` on 60..100 × 60..100 returns the empty sequence. -/
theorem claim_C3_scenario :
    insertList scRoot scPoints = some scTree ∧
    scTree.objects = [] ∧
    (∃ c, scTree.nodes = some c ∧
      (nth4 c 1).allPoints = scPoints ∧
      (nth4 c 0).allPoints = [] ∧ (nth4 c 2).allPoints = [] ∧ (nth4 c 3).allPoints = []) ∧
    scTree.retrieve { left := 0, right := 50, top := 50, bottom := 0 } = scPoints ∧
    scTree.retrieve { left := 60, right := 100, top := 100, bottom := 60 } = [] := by
  refine ⟨rfl, rfl, ⟨_, rfl, rfl, rfl, rfl, rfl⟩, ?_, rfl⟩
  show _ = scPoints
  decide

/-- C4: a node whose level equals `max_levels` never splits — insertion
into such a leaf just appends every point; and inserting more than
`maxObjects` points that all map to the same child index at every level of
the chain they descend (`UnifAt`) into a freshly constructed root with
depth cap `L = max_levels ≥ 1` produces a tree of depth exactly `L`
below the root, whose deepest node is a leaf at level `L` holding all the
points. -/
theorem claim_C4_depth_cap (mo ml : Int) (b : Bounds) (ps : List Point) (p0 : Point)
    (hmo : 1 ≤ mo) (hml : 1 ≤ ml) (hcount : (ps.length : Int) > mo)
    (hunif : ∀ p ∈ ps, UnifAt b p0 ml.toNat p) :
    (∀ (mo2 ml2 : Int) (b2 : Bounds) (os qs : List Point),
      insertList (Quadtree.mk mo2 ml2 ml2 b2 os none) qs =
        some (Quadtree.mk mo2 ml2 ml2 b2 (os ++ qs) none)) ∧
    (∃ T, insertList (Quadtree.make b (some mo) (some ml) none) ps = some T ∧
      T.depth = ml.toNat ∧
      ∃ path : List (Fin 4), path.length = ml.toNat ∧
        ∃ bd : Bounds, T.follow path = some (Quadtree.mk mo ml ml bd ps none)) := by
  constructor
  · intro mo2 ml2 b2 os qs
    induction qs generalizing os with
    | nil => simp [insertList]
    | cons q rest IH =>
      have hins : (Quadtree.mk mo2 ml2 ml2 b2 os none).insert q =
          some (Quadtree.mk mo2 ml2 ml2 b2 (os ++ [q]) none) := by
        rw [Quadtree.insert,
          show fuelFor (Quadtree.mk mo2 ml2 ml2 b2 os none) = 0 + 1 by simp [fuelFor],
          insertF_succ]
        simp only [insertStep]
        rw [if_neg (fun hc => lt_irrefl ml2 hc.2)]
      simp only [insertList, hins]
      rw [IH (os ++ [q]), List.append_assoc]
      rfl
  · refine ⟨chainTree mo ml p0 b 0 ps,
      insertList_chainTree mo ml b p0 ps hmo hml hunif, ?_, ?_⟩
    · exact chainTree_depth mo ml p0 ml.toNat b 0 ps (by omega) ⟨hcount, by omega⟩
    · refine ⟨chainPath p0 b ml.toNat, chainPath_length p0 ml.toNat b, ?_⟩
      obtain ⟨bd, hbd⟩ :=
        chainTree_follow mo ml p0 ml.toNat b 0 ps (by omega) ⟨hcount, by omega⟩
      rw [show (0 : Int) + (ml.toNat : Int) = ml by omega] at hbd
      exact ⟨bd, hbd⟩

attribute [local semireducible] Rat.add Rat.sub Rat.mul Rat.inv in
theorem claim_C4_witness :
    ((1 : Int) ≤ 1 ∧ (1 : Int) ≤ 1 ∧
      ((([{ lon := 10, lat := 10 }, { lon := 20, lat := 20 }] : List Point).length : Int) > 1) ∧
      (∀ p ∈ ([{ lon := 10, lat := 10 }, { lon := 20, lat := 20 }] : List Point),
        UnifAt { left := 0, right := 100, top := 100, bottom := 0 }
          { lon := 10, lat := 10 } (1 : Int).toNat p)) ∧
    ((∀ (mo2 ml2 : Int) (b2 : Bounds) (os qs : List Point),
      insertList (Quadtree.mk mo2 ml2 ml2 b2 os none) qs =
        some (Quadtree.mk mo2 ml2 ml2 b2 (os ++ qs) none)) ∧
    (∃ T, insertList (Quadtree.make { left := 0, right := 100, top := 100, bottom := 0 }
          (some 1) (some 1) none)
        [{ lon := 10, lat := 10 }, { lon := 20, lat := 20 }] = some T ∧
      T.depth = (1 : Int).toNat ∧
      ∃ path : List (Fin 4), path.length = (1 : Int).toNat ∧
        ∃ bd : Bounds, T.follow path =
          some (Quadtree.mk 1 1 1 bd
            [{ lon := 10, lat := 10 }, { lon := 20, lat := 20 }] none))) :=
  ⟨⟨by decide, by decide, by decide, by decide⟩,
    claim_C4_depth_cap 1 1 { left := 0, right := 100, top := 100, bottom := 0 }
      [{ lon := 10, lat := 10 }, { lon := 20, lat := 20 }] { lon := 10, lat := 10 }
      (by decide) (by decide) (by decide) (by decide)⟩

def wBounds : Bounds := { left := 0, right := 100, top := 100, bottom := 0 }

def wLeaf : Quadtree := Quadtree.mk 10 4 0 wBounds [{ lon := 10, lat := 10 }] none

def wRoot2 : Quadtree := Quadtree.make wBounds (some 1) none none

def wPts2 : List Point := [{ lon := 10, lat := 10 }, { lon := 60, lat := 60 }]

attribute [local semireducible] Rat.add Rat.sub Rat.mul Rat.inv in
def wSplit : Quadtree := (insertList wRoot2 wPts2).getD wRoot2

attribute [local semireducible] Rat.add Rat.sub Rat.mul Rat.inv in
theorem claim_C2_witness :
    (wBounds.left ≤ wBounds.right ∧ wBounds.bottom ≤ wBounds.top ∧
      insertList (Quadtree.make wBounds none none none) [{ lon := 10, lat := 10 }] =
        some wLeaf ∧
      wBounds.left ≤ wBounds.left ∧ wBounds.right ≤ wBounds.right ∧
      wBounds.bottom ≤ wBounds.bottom ∧ wBounds.top ≤ wBounds.top) ∧
    ∀ p ∈ ([{ lon := 10, lat := 10 }] : List Point), p ∈ wLeaf.retrieve wBounds :=
  ⟨⟨by decide, by decide, rfl, le_refl _, le_refl _, le_refl _, le_refl _⟩,
    claim_C2_retrieve_contains_all wBounds none none [{ lon := 10, lat := 10 }] wLeaf wBounds
      (by decide) (by decide) rfl (le_refl _) (le_refl _) (le_refl _) (le_refl _)⟩

attribute [local semireducible] Rat.add Rat.sub Rat.mul Rat.inv in
theorem claim_C1_amended_witness :
    (insertList (Quadtree.make wBounds none none none) [{ lon := 10, lat := 10 }] =
        some wLeaf ∧
      ({ lon := 10, lat := 10 } : Point) ∈ ([{ lon := 10, lat := 10 }] : List Point) ∧
      memB wBounds { lon := 10, lat := 10 } ∧
      memB { left := 0, right := 50, top := 50, bottom := 0 } { lon := 10, lat := 10 }) ∧
    ({ lon := 10, lat := 10 } : Point) ∈
      wLeaf.retrieve { left := 0, right := 50, top := 50, bottom := 0 } :=
  ⟨⟨rfl, by decide, by decide, by decide⟩,
    claim_C1_retrieve_superset_amended wBounds none none [{ lon := 10, lat := 10 }] wLeaf
      { left := 0, right := 50, top := 50, bottom := 0 } { lon := 10, lat := 10 }
      rfl (by decide) (by decide) (by decide)⟩

attribute [local semireducible] Rat.add Rat.sub Rat.mul Rat.inv in
theorem claim_C7_witness :
    Reachable wLeaf ∧
      ((∀ R : Bounds, wLeaf.clear.retrieve R = []) ∧
        wLeaf.clear.bounds = wLeaf.bounds ∧ wLeaf.clear.level = wLeaf.level ∧
        wLeaf.clear.max_objects = wLeaf.max_objects ∧
        wLeaf.clear.max_levels = wLeaf.max_levels ∧
        wLeaf.clear.nodes = none ∧
        wLeaf.clear = Quadtree.make wLeaf.bounds (some wLeaf.max_objects)
          (some wLeaf.max_levels) none) :=
  ⟨⟨wBounds, none, none, [{ lon := 10, lat := 10 }], rfl⟩,
    claim_C7_clear wLeaf ⟨wBounds, none, none, [{ lon := 10, lat := 10 }], rfl⟩⟩

attribute [local semireducible] Rat.add Rat.sub Rat.mul Rat.inv in
theorem claim_C10_witness :
    Reachable wLeaf ∧
      ∃ t2, wLeaf.insert { lon := 30, lat := 30 } = some t2 ∧
        insertF ((wLeaf.max_levels - wLeaf.level).toNat + 1) wLeaf
          { lon := 30, lat := 30 } = some t2 :=
  ⟨⟨wBounds, none, none, [{ lon := 10, lat := 10 }], rfl⟩,
    claim_C10_insert_terminates wLeaf { lon := 30, lat := 30 }
      ⟨wBounds, none, none, [{ lon := 10, lat := 10 }], rfl⟩⟩

attribute [local semireducible] Rat.add Rat.sub Rat.mul Rat.inv in
theorem claim_C5_witness :
    (Reachable wSplit ∧ wSplit ∈ wSplit.subtrees ∧ wSplit.nodes ≠ none) ∧
      wSplit.objects = [] :=
  ⟨⟨⟨wBounds, some 1, none, wPts2, rfl⟩, List.mem_cons_self _ _,
      fun h => absurd h (Option.some_ne_none _)⟩,
    claim_C5_split_nodes_empty wSplit wSplit ⟨wBounds, some 1, none, wPts2, rfl⟩
      (List.mem_cons_self _ _) (fun h => absurd h (Option.some_ne_none _))⟩
